import Mathlib

/-!
Shallow embedding of `scanfnt.py`, a signature-based font carver.

The input file is modelled as a `List Nat` of byte values.  `fp.read` at a
position returns whatever bytes are available (possibly fewer than requested);
`struct.unpack` on a short read raises, which is modelled with `Option` /
`Except`.  Machine integers do not occur: Python integers are unbounded, and
all parsed fields are nonnegative, so `Nat` (with `Int` where the source can
go negative) is the faithful carrier.
-/

/-- A read of `n` bytes at position `pos`: `fp.read` returns the available
bytes, which may be fewer than `n` near the end of the file. -/
def readAvail (file : List Nat) (pos n : Nat) : List Nat := (file.drop pos).take n

/-- `read_unpack`-style read: `struct.unpack` demands exactly `n` bytes, and a
short read makes it raise, modelled as `none`. -/
def readExact (file : List Nat) (pos n : Nat) : Option (List Nat) :=
  if (readAvail file pos n).length = n then some (readAvail file pos n) else none

/-- The four carve-eligible signatures `SIG.ttf_0100`, `SIG.ttf_true`
(`true`), `SIG.ttf_typ1` (`typ1`), `SIG.otf_otto` (`OTTO`), in source order.
The collection tag `tccf` is only printed by the scan loop and is never
appended to the offset list. -/
def sigList : List (List Nat) :=
  [[0, 1, 0, 0], [116, 114, 117, 101], [116, 121, 112, 49], [79, 84, 84, 79]]

/-- Number of chunks scanned: `divmod(size, B)` plus one for a remainder,
with a minimum of one chunk. -/
def chunkNums (size B : Nat) : Nat :=
  max 1 (size / B + if size % B = 0 then 0 else 1)

/-- One refill of the scan buffer (source lines 124-132).  First the source
copies `buf[i] = buf[BUF_PAD+i]` for `i < 4` (note: the head of the previous
payload, not its tail).  Then the fresh bytes `data` are written at positions
`4..4+m`.  If the read was short (`m < B`), the source zeroes positions
`B+4-1-j` for `j < B - i` where `i` is the last index of the enumeration =
`m - 1` (for an empty read, `i` keeps the value `3` left over from the copy
loop), i.e. positions `iLast+4 .. B+3` are zeroed. -/
def refill (buf data : List Nat) (B : Nat) : List Nat :=
  let b1 := (buf.drop 4).take 4 ++ buf.drop 4
  let m := data.length
  let b2 := b1.take 4 ++ data ++ b1.drop (4 + m)
  if m = B then b2
  else
    let iLast := if m = 0 then 3 else m - 1
    b2.take (iLast + 4) ++ List.replicate (B + 4 - (iLast + 4)) 0

/-- The inner window scan over one refilled buffer (source lines 134-144):
for every `i < B`, if `buf[i:i+4]` is one of the four carve signatures, emit
`chunkOffset + i`. -/
def scanChunkMatches (buf : List Nat) (B : Nat) (chunkOff : Int) : List Int :=
  (List.range B).filterMap fun i =>
    if (buf.drop i).take 4 ∈ sigList then some (chunkOff + i) else none

/-- The chunk loop of the scanner, iterated `k` times.  The file position
advances by `B` per chunk (every read before the final chunk is full), and
`chunkOff` likewise. -/
def scanGo (file : List Nat) (B : Nat) : Nat → Nat → List Nat → Int → List Int
  | 0, _, _, _ => []
  | k + 1, pos, buf, chunkOff =>
    let buf' := refill buf (readAvail file pos B) B
    scanChunkMatches buf' B chunkOff ++
      scanGo file B k (pos + B) buf' (chunkOff + B)

/-- The signature scanner (source lines 112-145): buffer of `B + 4` zero
bytes, initial `chunk_offset = -BUF_PAD = -4`. -/
def scan (file : List Nat) (B : Nat) : List Int :=
  scanGo file B (chunkNums file.length B) 0 (List.replicate (B + 4) 0) (-4)

/-- Reference predicate for the emitted candidates: the byte positions of the
file at which the 4-byte window starting there equals one of the carve
signatures.  (The collection tag never enters the candidate list.) -/
def matchPositions (file : List Nat) : List Int :=
  (List.range file.length).filterMap fun p =>
    if (file.drop p).take 4 ∈ sigList then some ((p : Nat) : Int) else none

/-- Big-endian 16-bit field of a 2-byte readAvail (`struct` format `H` under
`!`). -/
def be16 : List Nat → Nat
  | [a, b] => 256 * a + b
  | _ => 0

/-- Big-endian 32-bit field of a 4-byte readAvail (`struct` format `I` under
`!`). -/
def be32 : List Nat → Nat
  | [a, b, c, d] => ((a * 256 + b) * 256 + c) * 256 + d
  | _ => 0

/-- `t_otf_sfnt`: the parsed 12-byte offset-table header. -/
structure Sfnt where
  sfntVersion : List Nat
  numTables : Nat
  searchRange : Nat
  entrySelector : Nat
  rangeShift : Nat
deriving DecidableEq

/-- Parse the 12 header bytes with format `!4sHHHH`. -/
def parseSfnt (b : List Nat) : Sfnt :=
  ⟨b.take 4, be16 (readAvail b 4 2), be16 (readAvail b 6 2), be16 (readAvail b 8 2),
    be16 (readAvail b 10 2)⟩

/-- The table-directory validator (source lines 156-163): the candidate is
skipped (`none`) unless the 12-byte header is inside the file, `numTables`,
`rangeShift` and `searchRange` are all nonzero, and
`numTables*16 - searchRange == rangeShift` (Python integer arithmetic, hence
the `Int` subtraction). -/
def validateSfnt (file : List Nat) (b : Nat) : Option Sfnt :=
  if b + 12 > file.length then none
  else
    let s := parseSfnt (readAvail file b 12)
    if s.numTables = 0 then none
    else if s.rangeShift = 0 then none
    else if s.searchRange = 0 then none
    else if (s.numTables * 16 : Int) - s.searchRange ≠ s.rangeShift then none
    else some s

/-- A 16-byte file whose only signature window is `OTTO` split across the
boundary of two chunks of size 8 (bytes 6-9). -/
def fileSplit : List Nat :=
  [0, 0, 0, 0, 0, 0, 79, 84, 84, 79, 0, 0, 0, 0, 0, 0]

/-- C1: the scanner misses a signature split across a chunk boundary (the
refill copies the head of the previous chunk instead of its tail) and its
output depends on the chunk size: with chunks of size 8 the `OTTO` at byte 6
of `fileSplit` is lost, with a single chunk of size 16 it is found, and the
reference window-match positions are exactly `[6]`. -/
theorem scanner_misses_split_signature :
    scan fileSplit 8 = [] ∧ scan fileSplit 16 = [6] ∧
      matchPositions fileSplit = [6] := by decide

/-- A header accepted by the validator: `OTTO`, `numTables = 3`,
`searchRange = 32`, `entrySelector = 0`, `rangeShift = 16`. -/
def hdrAccept : List Nat := [79, 84, 84, 79, 0, 3, 0, 32, 0, 0, 0, 16]

/-- The same header with `rangeShift = 20`. -/
def hdrReject : List Nat := [79, 84, 84, 79, 0, 3, 0, 32, 0, 0, 0, 20]

/-- C2: the validator accepts a candidate base offset exactly when the
12-byte header fits in the file and the parsed fields satisfy
`numTables > 0`, `searchRange > 0`, `rangeShift > 0` and
`rangeShift = numTables*16 - searchRange`; a violation yields `none`, never
an error.  Moreover the header `numTables=3, searchRange=32, rangeShift=16`
is accepted while the variant with `rangeShift=20` is rejected. -/
theorem validator_accepts_iff :
    (∀ (file : List Nat) (b : Nat),
      (validateSfnt file b).isSome ↔
        (b + 12 ≤ file.length ∧
          0 < (parseSfnt (readAvail file b 12)).numTables ∧
          0 < (parseSfnt (readAvail file b 12)).searchRange ∧
          0 < (parseSfnt (readAvail file b 12)).rangeShift ∧
          ((parseSfnt (readAvail file b 12)).rangeShift : Int) =
            (parseSfnt (readAvail file b 12)).numTables * 16 -
              (parseSfnt (readAvail file b 12)).searchRange)) ∧
      (validateSfnt hdrAccept 0).isSome = true ∧
      validateSfnt hdrReject 0 = none := by
  refine ⟨?_, by decide, by decide⟩
  intro file b
  simp only [validateSfnt]
  split_ifs with h1 h2 h3 h4 h5
  · simp only [Option.isSome_none, Bool.false_eq_true, false_iff]
    intro h; omega
  · simp only [Option.isSome_none, Bool.false_eq_true, false_iff]
    intro h; omega
  · simp only [Option.isSome_none, Bool.false_eq_true, false_iff]
    intro h; omega
  · simp only [Option.isSome_none, Bool.false_eq_true, false_iff]
    intro h; omega
  · simp only [Option.isSome_none, Bool.false_eq_true, false_iff]
    intro h
    exact h5 (by omega)
  · simp only [Option.isSome_some, true_iff]
    refine ⟨by omega, by omega, by omega, by omega, by omega⟩

/-- `t_otf_record`: one 16-byte table-directory record. -/
structure TableRecord where
  tag : List Nat
  checksum : Nat
  offset : Nat
  length : Nat
deriving DecidableEq

/-- Parse a 16-byte record with format `!4sIII`. -/
def parseRecord (b : List Nat) : TableRecord :=
  ⟨b.take 4, be32 (readAvail b 4 4), be32 (readAvail b 8 4),
    be32 (readAvail b 12 4)⟩

/-- `t_otf_table_name_header`: the 6-byte `name` table header (`!HHH`). -/
structure NameHeader where
  version : Nat
  count : Nat
  storageOffset : Nat
deriving DecidableEq

/-- Parse the `name` table header. -/
def parseNameHeader (b : List Nat) : NameHeader :=
  ⟨be16 (readAvail b 0 2), be16 (readAvail b 2 2), be16 (readAvail b 4 2)⟩

/-- `t_otf_table_name_records`: one 12-byte name record (`!HHHHHH`). -/
structure NameRec where
  platformId : Nat
  encodingId : Nat
  languageId : Nat
  nameId : Nat
  length : Nat
  offset : Nat
deriving DecidableEq

/-- Parse a 12-byte name record. -/
def parseNameRec (b : List Nat) : NameRec :=
  ⟨be16 (readAvail b 0 2), be16 (readAvail b 2 2), be16 (readAvail b 4 2),
    be16 (readAvail b 6 2), be16 (readAvail b 8 2), be16 (readAvail b 10 2)⟩

/-- A UTF-8 continuation byte. -/
def isCont (c : Nat) : Bool := decide (128 ≤ c) && decide (c < 192)

/-- Strict UTF-8 decoding of a byte string into code points, as performed by
`bytes.decode` with the default codec: `none` models the raised
decode error (overlong encodings, surrogates and values beyond the last code
point are rejected). -/
def utf8Decode : List Nat → Option (List Nat)
  | [] => some []
  | b :: rest =>
    if b < 128 then (utf8Decode rest).map (b :: ·)
    else if b < 194 then none
    else if b < 224 then
      match rest with
      | c1 :: rest2 =>
        if isCont c1 then
          (utf8Decode rest2).map (((b - 192) * 64 + (c1 - 128)) :: ·)
        else none
      | [] => none
    else if b < 240 then
      match rest with
      | c1 :: c2 :: rest2 =>
        if isCont c1 && isCont c2 && !(b == 224 && decide (c1 < 160)) &&
            !(b == 237 && decide (160 ≤ c1)) then
          (utf8Decode rest2).map
            ((((b - 224) * 64 + (c1 - 128)) * 64 + (c2 - 128)) :: ·)
        else none
      | _ => none
    else if b < 245 then
      match rest with
      | c1 :: c2 :: c3 :: rest2 =>
        if isCont c1 && isCont c2 && isCont c3 &&
            !(b == 240 && decide (c1 < 144)) &&
            !(b == 244 && decide (144 ≤ c1)) then
          (utf8Decode rest2).map
            (((((b - 240) * 64 + (c1 - 128)) * 64 + (c2 - 128)) * 64 +
              (c3 - 128)) :: ·)
        else none
      | _ => none
    else none

/-- The mutable flags and filename of the candidate loop:
`has_name`, `has_subfamily`, `filename`. -/
structure NameState where
  hasName : Bool
  hasSub : Bool
  fname : List Nat
deriving DecidableEq

/-- The literal separator of family and subfamily in the filename. -/
def sepDash : List Nat := [32, 45, 32]

/-- The filename update performed for one decoded name record (source lines
192-197): the first record with `nameId == 1` sets the filename, and once a
family name is present the first record with `nameId == 2` appends the
subfamily. -/
def nameStep (s : NameState) (nameId : Nat) (str : List Nat) : NameState :=
  let s1 := if !s.hasName && nameId == 1 then ⟨true, s.hasSub, str⟩ else s
  if s1.hasName && !s1.hasSub && nameId == 2 then
    ⟨s1.hasName, true, s1.fname ++ sepDash ++ str⟩
  else s1

/-- Uncaught Python exceptions the candidate loop can raise. -/
inductive PyErr where
  | negSeek
  | structError
  | unicodeError
deriving DecidableEq

/-- The name-record loop (source lines 181-198): the `j`-th record is read at
`base + tableOffset + 6 + 12*j`, its string at
`base + tableOffset + storageOffset + record.offset`; any short read raises
`struct.error`, a decode failure raises the decode error, and otherwise the
filename state is advanced. -/
def processNames (file : List Nat) (b tblOff storOff : Nat) :
    Nat → Nat → NameState → Except PyErr NameState
  | 0, _, s => .ok s
  | n + 1, j, s =>
    match readExact file (b + tblOff + 6 + 12 * j) 12 with
    | none => .error .structError
    | some rb =>
      let r := parseNameRec rb
      match readExact file (b + tblOff + storOff + r.offset) r.length with
      | none => .error .structError
      | some sb =>
        match utf8Decode sb with
        | none => .error .unicodeError
        | some str =>
          processNames file b tblOff storOff n (j + 1) (nameStep s r.nameId str)

/-- ASCII bytes of the `name` tag. -/
def nameTag : List Nat := [110, 97, 109, 101]

/-- The table-record loop (source lines 167-199): the `i`-th record is read
at `base + 12 + 16*i`, `total_length` accumulates
`max total (record.offset + record.length)`, and a record tagged `name`
triggers the name-table digression (header at `base + record.offset`). -/
def processRecords (file : List Nat) (b : Nat) :
    Nat → Nat → Nat → NameState → Except PyErr (Nat × NameState)
  | 0, _, total, s => .ok (total, s)
  | n + 1, i, total, s =>
    match readExact file (b + 12 + 16 * i) 16 with
    | none => .error .structError
    | some rb =>
      let r := parseRecord rb
      let total2 := max total (r.offset + r.length)
      if r.tag = nameTag then
        match readExact file (b + r.offset) 6 with
        | none => .error .structError
        | some hb =>
          match processNames file b r.offset (parseNameHeader hb).storageOffset
              (parseNameHeader hb).count 0 s with
          | .error e => .error e
          | .ok s2 => processRecords file b n (i + 1) total2 s2
      else processRecords file b n (i + 1) total2 s

/-- The byte stream fed to the SHA-1 fallback (source lines 204-210): `k`
reads of 1024 bytes each, sequential from the current position; a short read
near the end of the file simply yields fewer bytes. -/
def sha1Go (file : List Nat) : Nat → Nat → List Nat
  | 0, _ => []
  | k + 1, p =>
    let d := readAvail file p 1024
    d ++ sha1Go file k (p + d.length)

/-- Bytes hashed for an unnamed candidate: `total_length // 1024` full blocks
starting at the base offset. -/
def sha1Input (file : List Nat) (b total : Nat) : List Nat :=
  sha1Go file (total / 1024) b

/-- The characters matched by `regexp_invalid_pathstr`.  In the source
character class the two characters `\|` form one escape for the pipe, so the
backslash itself (92) is not matched. -/
def regexp_invalid_pathstr : List Nat := [60, 62, 58, 34, 47, 124, 63, 42, 0]

/-- `regexp_invalid_pathstr.sub('', filename)`: every matched character is
removed. -/
def sanitize (l : List Nat) : List Nat :=
  l.filter fun c => decide (c ∉ regexp_invalid_pathstr)

/-- The version tags mapped to the `.ttf` extension (source line 212), in
source order `ttf_true, ttf_typ1, ttf_0100`. -/
def ttfVersions : List (List Nat) :=
  [[116, 114, 117, 101], [116, 121, 112, 49], [0, 1, 0, 0]]

/-- ASCII bytes of the extension appended for a TrueType version tag. -/
def ttfExt : List Nat := [46, 116, 116, 102]

/-- ASCII bytes of the extension appended otherwise. -/
def otfExt : List Nat := [46, 111, 116, 102]

/-- Extension selection of source line 212. -/
def extFor (v : List Nat) : List Nat := if v ∈ ttfVersions then ttfExt else otfExt

/-- `t_target_chunk`: a planned extraction. -/
structure Target where
  filename : List Nat
  offset : Nat
  length : Nat
deriving DecidableEq

/-- Evaluation of one candidate offset (source lines 151-215).  A candidate
whose 12-byte header does not fit is skipped; a negative offset surviving
that guard makes `fp.seek` raise; then the directory is validated, the
records processed, and either the candidate is skipped (no name, policy off),
or a target is recorded with the sanitized filename and the planned length.
`digest` stands for `sha1(...).hexdigest()` as a function of the hashed
bytes. -/
def evalCandidate (digest : List Nat → List Nat) (saveInvalid : Bool)
    (file : List Nat) (base : Int) : Except PyErr (Option Target) :=
  if base + 12 > (file.length : Int) then .ok none
  else if base < 0 then .error .negSeek
  else
    let b := base.toNat
    match validateSfnt file b with
    | none => .ok none
    | some sfnt =>
      match processRecords file b sfnt.numTables 0 0 ⟨false, false, []⟩ with
      | .error e => .error e
      | .ok (total, s) =>
        if !s.hasName && !saveInvalid then .ok none
        else
          let fname0 := if s.hasName then s.fname else digest (sha1Input file b total)
          .ok (some ⟨sanitize (fname0 ++ extFor sfnt.sfntVersion), b, total⟩)

/-- The candidate loop over all scanned offsets, in order; an uncaught
exception aborts the whole loop. -/
def evalAll (digest : List Nat → List Nat) (saveInvalid : Bool)
    (file : List Nat) : List Int → Except PyErr (List Target)
  | [] => .ok []
  | o :: os =>
    match evalCandidate digest saveInvalid file o with
    | .error e => .error e
    | .ok none => evalAll digest saveInvalid file os
    | .ok (some t) =>
      match evalAll digest saveInvalid file os with
      | .error e => .error e
      | .ok ts => .ok (t :: ts)

/-- Scan then evaluate: the list `to_save` of the source, or the uncaught
exception that aborted the run. -/
def runPipeline (digest : List Nat → List Nat) (saveInvalid : Bool)
    (file : List Nat) (B : Nat) : Except PyErr (List Target) :=
  evalAll digest saveInvalid file (scan file B)

/-- The bytes written for one target (source lines 220-224): `fp.seek` to the
base offset and `fp.read(length)`, truncated at the end of the input. -/
def extract (file : List Nat) (t : Target) : List Nat :=
  readAvail file t.offset t.length

/-- The final write loop as a map from filename to written content: each
target overwrites the file of its name, so a later target wins. -/
def writeAll (file : List Nat) (ts : List Target) : List Nat → Option (List Nat) :=
  ts.foldl
    (fun fs t name => if name = t.filename then some (extract file t) else fs name)
    (fun _ => none)

deriving instance DecidableEq for Except

/-- A structurally valid 70-byte font blob: TrueType version `0x00010000`,
two tables (`name` at 44 covering a single family record with value `Ab`,
`glyf` at 64 of length 6), `numTables=2, searchRange=16, rangeShift=16`. -/
def blob70 : List Nat :=
  [0,1,0,0, 0,2, 0,16, 0,1, 0,16,
   110,97,109,101, 0,0,0,0, 0,0,0,44, 0,0,0,20,
   103,108,121,102, 0,0,0,0, 0,0,0,64, 0,0,0,6,
   0,0, 0,1, 0,18,
   0,0, 0,0, 0,0, 0,1, 0,2, 0,0,
   65,98,
   1,2,3,4,5,6]

/-- `blob70` embedded at offset 3 of a 75-byte buffer. -/
def file75 : List Nat := [255,255,255] ++ blob70 ++ [255,255]

/-- Like `file75`, but the `glyf` record claims length 100000, so the
planned span `64 + 100000` runs far past the end of the 75-byte input. -/
def fileOOB : List Nat :=
  [255,255,255] ++
  [0,1,0,0, 0,2, 0,16, 0,1, 0,16,
   110,97,109,101, 0,0,0,0, 0,0,0,44, 0,0,0,20,
   103,108,121,102, 0,0,0,0, 0,0,0,64, 0,1,134,160,
   0,0, 0,1, 0,18,
   0,0, 0,0, 0,0, 0,1, 0,2, 0,0,
   65,98,
   1,2,3,4,5,6] ++ [255,255]

/-- A valid font whose `name` table holds `nameId=1` value `Example` then
`nameId=2` value `Bold`, in that order. -/
def fEx : List Nat :=
  [0,1,0,0, 0,1, 0,8, 0,0, 0,8,
   110,97,109,101, 0,0,0,0, 0,0,0,28, 0,0,0,41,
   0,0, 0,2, 0,30,
   0,0, 0,0, 0,0, 0,1, 0,7, 0,0,
   0,0, 0,0, 0,0, 0,2, 0,4, 0,7,
   69,120,97,109,112,108,101,
   66,111,108,100]

/-- A valid font whose `name` table holds `nameId=2` value `Bo` FIRST and
`nameId=1` value `Ex` second. -/
def fRev : List Nat :=
  [0,1,0,0, 0,1, 0,8, 0,0, 0,8,
   110,97,109,101, 0,0,0,0, 0,0,0,28, 0,0,0,34,
   0,0, 0,2, 0,30,
   0,0, 0,0, 0,0, 0,2, 0,2, 0,0,
   0,0, 0,0, 0,0, 0,1, 0,2, 0,2,
   66,111,
   69,120]

/-- A valid 28-byte font with a single non-`name` table of planned length 13:
no family name is recoverable. -/
def fileNoName : List Nat :=
  [0,1,0,0, 0,1, 0,8, 0,0, 0,8,
   97,98,99,100, 0,0,0,0, 0,0,0,0, 0,0,0,13]

/-- A 12-byte file that is exactly a valid `OTTO` header announcing one
table record, with no room for the record itself. -/
def fileTrunc : List Nat := [79,84,84,79, 0,1, 0,8, 0,0, 0,8]

/-- A valid font whose first name record points at the lone byte `0xFF`
(not valid UTF-8) and whose second name record is `nameId=1` value `Ok`. -/
def fileBadUtf : List Nat :=
  [0,1,0,0, 0,1, 0,8, 0,0, 0,8,
   110,97,109,101, 0,0,0,0, 0,0,0,28, 0,0,0,33,
   0,0, 0,2, 0,30,
   0,0, 0,0, 0,0, 0,0, 0,1, 0,2,
   0,0, 0,0, 0,0, 0,1, 0,2, 0,0,
   79,107,255]

/-- C4: a candidate whose header validates but whose table records lie past
the end of the file makes the run abort with an uncaught `struct.error`: the
scanner emits the candidate at offset 0 of `fileTrunc`, and the candidate
loop returns the exception instead of dropping the candidate. -/
theorem oob_candidate_aborts_run :
    scan fileTrunc 16 = [0] ∧
      runPipeline (fun l => l) false fileTrunc 16 = .error .structError := by
  decide

/-- C7: a name record whose string bytes are not valid UTF-8 makes the run
abort with an uncaught decode error instead of skipping that record: in
`fileBadUtf` the first name record's byte `0xFF` fails to decode, and the
second record (`nameId=1`, value `Ok`) is never reached. -/
theorem bad_utf8_aborts_run :
    utf8Decode [255] = none ∧
      runPipeline (fun l => l) false fileBadUtf 64 = .error .unicodeError := by
  decide

/-- C3 counterexample: on `fileOOB` the single candidate validates and plans
`totalLength = 100064`, but the extraction write holds only the 72 available
bytes, not `totalLength` bytes. -/
theorem extraction_truncated_at_eof :
    runPipeline (fun l => l) false fileOOB 80 =
        .ok [⟨[65,98,46,116,116,102], 3, 100064⟩] ∧
      (extract fileOOB ⟨[65,98,46,116,116,102], 3, 100064⟩).length = 72 ∧
      (72 : Nat) ≠ 100064 := by
  decide

/-- C5 counterexample: in `fRev` a `nameId=2` record (`Bo`) precedes the
`nameId=1` record (`Ex`); the subfamily is present but the code emits
filename `Ex.ttf`, not the `Ex - Bo.ttf` the claim predicts. -/
theorem subfamily_before_family_not_appended :
    evalCandidate (fun l => l) false fRev 0 =
        .ok (some ⟨[69,120,46,116,116,102], 0, 62⟩) ∧
      [69,120,46,116,116,102] ≠ [69,120,32,45,32,66,111,46,116,116,102] := by
  decide

/-- C6 counterexample: for the unnamed candidate of `fileNoName` with
`totalLength = 13`, the bytes fed to the SHA-1 hash are `13 // 1024 = 0`
blocks, i.e. the empty string, not the candidate's 13-byte range: with the
identity in place of the hex digest the filename is bare `.ttf`. -/
theorem sha1_input_misses_tail :
    sha1Input fileNoName 0 13 = [] ∧
      readAvail fileNoName 0 13 ≠ [] ∧
      evalCandidate (fun l => l) true fileNoName 0 =
        .ok (some ⟨[46,116,116,102], 0, 13⟩) := by
  decide

/-- The character set the claim says is removed: the code set plus the
backslash (92). -/
def claimedInvalidChars : List Nat := [60, 62, 58, 34, 47, 92, 124, 63, 42, 0]

/-- Removal of the claimed character set, for comparison with `sanitize`. -/
def sanitizeClaimed (l : List Nat) : List Nat :=
  l.filter fun c => decide (c ∉ claimedInvalidChars)

/-- C9: in the source character class the two characters backslash-pipe form
a single regex escape for the pipe, so the backslash itself is NOT removed:
on the name `a\b:c` the code removes only the colon and keeps the backslash,
while the claimed set would remove both. -/
theorem sanitize_keeps_backslash :
    sanitize [97,92,98,58,99] = [97,92,98,99] ∧
      sanitizeClaimed [97,92,98,58,99] = [97,98,99] ∧
      [97,92,98,99] ≠ [97,98,99] := by
  decide

/-- Sum of big-endian 32-bit words of a byte list (what
`sum(struct.unpack(..nI.., buf))` computes on a word-aligned buffer);
a trailing fragment shorter than a word contributes nothing, but the
callers only apply this to word-aligned buffers. -/
def sumWords : List Nat → Nat
  | a :: b :: c :: d :: rest => (((a * 256 + b) * 256 + c) * 256 + d) + sumWords rest
  | _ => 0

/-- The `while` loop of `calc_table_checksum` (source lines 69-79): each
iteration reads `min(bufsize, length)` bytes, LEFT-pads a non-word-multiple
block with zero bytes (`b'\x00' * (4-left) + buf`), adds the word sum, and
exits once `length - bufsize` is not positive.  `struct.unpack` on a short
read raises (`none`); `bufsize = 0` never terminates in the source and is
likewise modelled as `none` (every caller uses the default `2**10`).  The
accumulated Python `int` is unbounded, hence plain `Nat` addition. -/
def checksumGo (file : List Nat) (bufsize : Nat) : Nat → Nat → Nat → Option Nat
  | 0, _, _ => none
  | fuel + 1, pos, length =>
    if length = 0 then some 0
    else
      let size := if length > bufsize then bufsize else length
      let buf := readAvail file pos size
      let n := size / 4 + if size % 4 > 0 then 1 else 0
      let buf2 := if size % 4 > 0 then List.replicate (4 - size % 4) 0 ++ buf else buf
      if buf2.length ≠ 4 * n then none
      else if length ≤ bufsize then some (sumWords buf2)
      else (checksumGo file bufsize fuel (pos + size) (length - bufsize)).map
        (fun rest => sumWords buf2 + rest)

/-- `calc_table_checksum(fp, offset, length, bufsize)` (source lines 65-81);
the saved and restored file position does not affect the returned sum.  Each
iteration lowers `length` by `bufsize ≥ 1`, so a fuel of `length + 1` is
enough; with `bufsize = 0` the source loops forever, and the fuel running out
models that divergence as `none`. -/
def calc_table_checksum (file : List Nat) (offset length bufsize : Nat) : Option Nat :=
  checksumGo file bufsize (length + 1) offset length

/-- The checksum the claim describes: big-endian 32-bit words over the byte
range with the short final word RIGHT-padded with zero bytes, reduced
modulo `2^32`. -/
def checksum_claimed (file : List Nat) (offset length : Nat) : Nat :=
  let r := readAvail file offset length
  sumWords (r ++ List.replicate ((4 - r.length % 4) % 4) 0) % 2 ^ 32

/-- What the code actually computes on an in-bounds range (for a word-divisible
block size): words of the block-aligned prefix of the range, plus the words of
the final partial block LEFT-padded with zero bytes, with no reduction
modulo `2^32`. -/
def checksum_amended (file : List Nat) (offset length bufsize : Nat) : Nat :=
  let r := readAvail file offset length
  let q := bufsize * (length / bufsize)
  sumWords (r.take q) +
    sumWords (List.replicate ((4 - (r.drop q).length % 4) % 4) 0 ++ r.drop q)

/-- C8 counterexample: on the single byte `0x01` the code left-pads and
returns 1 where the claimed right-padded word is `0x01000000 = 16777216`;
and on eight `0xFF` bytes the code returns `2*(2^32-1) = 8589934590` with no
`2^32` wraparound, while the claimed value is reduced. -/
theorem checksum_pad_and_modulo_differ :
    calc_table_checksum [1] 0 1 1024 = some 1 ∧
      checksum_claimed [1] 0 1 = 16777216 ∧
      (1 : Nat) ≠ 16777216 ∧
      calc_table_checksum (List.replicate 8 255) 0 8 1024 = some 8589934590 ∧
      checksum_claimed (List.replicate 8 255) 0 8 = 4294967294 ∧
      2 ^ 32 ≤ 8589934590 := by
  decide

/-- Length of an available read. -/
theorem readAvail_length (file : List Nat) (pos n : Nat) :
    (readAvail file pos n).length = min n (file.length - pos) := by
  simp [readAvail]

/-- `sumWords` splits across an append at a word boundary. -/
theorem sumWords_append : ∀ (k : Nat) (a b : List Nat), a.length = 4 * k →
    sumWords (a ++ b) = sumWords a + sumWords b := by
  intro k
  induction k with
  | zero =>
    intro a b h
    have ha : a = [] := List.length_eq_zero.mp (by omega)
    subst ha; simp [sumWords]
  | succ k ih =>
    intro a b h
    match a with
    | [] => simp only [List.length_nil] at h; omega
    | [x] => simp only [List.length_cons, List.length_nil] at h; omega
    | [x, y] => simp only [List.length_cons, List.length_nil] at h; omega
    | [x, y, z] => simp only [List.length_cons, List.length_nil] at h; omega
    | x :: y :: z :: w :: rest =>
      have hr : rest.length = 4 * k := by
        simp only [List.length_cons] at h; omega
      simp only [List.cons_append, List.append_eq, sumWords]
      rw [ih rest b hr]
      omega

/-- `sumWords` splits across an append after a word-divisible prefix. -/
theorem sumWords_append_dvd (a b : List Nat) (h : 4 ∣ a.length) :
    sumWords (a ++ b) = sumWords a + sumWords b := by
  obtain ⟨k, hk⟩ := h
  exact sumWords_append k a b hk

/-- Peeling one full block off the front of `checksum_amended`. -/
theorem checksum_amended_step (file : List Nat) (pos length bufsize : Nat)
    (hb : 0 < bufsize) (hd : 4 ∣ bufsize) (hlt : bufsize < length)
    (hle : pos + length ≤ file.length) :
    checksum_amended file pos length bufsize =
      sumWords (readAvail file pos bufsize) +
        checksum_amended file (pos + bufsize) (length - bufsize) bufsize := by
  have hK : 1 ≤ length / bufsize := (Nat.one_le_div_iff hb).mpr (le_of_lt hlt)
  obtain ⟨k, hk⟩ : ∃ k, length / bufsize = k + 1 := ⟨length / bufsize - 1, by omega⟩
  have hmod := Nat.div_add_mod length bufsize
  have hmlt : length % bufsize < bufsize := Nat.mod_lt _ hb
  rw [hk] at hmod
  have hsub : length - bufsize = bufsize * k + length % bufsize := by
    have hx : bufsize * (k + 1) = bufsize * k + bufsize := by ring
    omega
  have hq' : (length - bufsize) / bufsize = k := by
    rw [hsub, Nat.mul_add_div hb, Nat.div_eq_of_lt hmlt]
    omega
  have hrdrop : (readAvail file pos length).drop bufsize =
      readAvail file (pos + bufsize) (length - bufsize) := by
    simp only [readAvail]
    rw [List.drop_take, List.drop_drop]
  have hrtake : (readAvail file pos length).take bufsize = readAvail file pos bufsize := by
    simp only [readAvail, List.take_take]
    rw [min_eq_left (le_of_lt hlt)]
  have hrlen : (readAvail file pos length).length = length := by
    rw [readAvail_length]; omega
  have h4 : 4 ∣ ((readAvail file pos length).take bufsize).length := by
    rw [List.length_take, hrlen, min_eq_left (le_of_lt hlt)]
    exact hd
  simp only [checksum_amended]
  rw [hk, hq']
  have hsplit : bufsize * (k + 1) = bufsize + bufsize * k := by ring
  rw [hsplit, List.take_add, sumWords_append_dvd _ _ h4]
  rw [show ∀ l : List Nat, l.drop (bufsize + bufsize * k) = (l.drop bufsize).drop (bufsize * k)
    from fun l => by rw [List.drop_drop]]
  rw [hrdrop, hrtake]
  omega


/-- On a final block (`length ≤ bufsize`) the amended checksum is the word
sum of the zero-left-padded block. -/
theorem checksum_amended_small (file : List Nat) (pos length bufsize : Nat)
    (hb : 0 < bufsize) (hd : 4 ∣ bufsize) (hlb : length ≤ bufsize)
    (hlen : (readAvail file pos length).length = length) :
    checksum_amended file pos length bufsize =
      sumWords (List.replicate ((4 - length % 4) % 4) 0 ++ readAvail file pos length) := by
  simp only [checksum_amended]
  by_cases heq : length = bufsize
  · have hq : bufsize * (length / bufsize) = length := by
      rw [heq, Nat.div_self hb, Nat.mul_one]
    have hm0 : length % 4 = 0 := by omega
    rw [hq]
    rw [List.take_of_length_le (by omega), List.drop_eq_nil_of_le (by omega)]
    simp [hm0, sumWords]
  · have hlt : length < bufsize := by omega
    have hq : bufsize * (length / bufsize) = 0 := by
      rw [Nat.div_eq_of_lt hlt, Nat.mul_zero]
    rw [hq]
    simp [hlen, sumWords]

theorem checksumGo_eq (file : List Nat) (bufsize : Nat) (hb : 0 < bufsize)
    (hd : 4 ∣ bufsize) :
    ∀ (fuel length pos : Nat), length < fuel → pos + length ≤ file.length →
      checksumGo file bufsize fuel pos length =
        some (checksum_amended file pos length bufsize) := by
  intro fuel
  induction fuel with
  | zero => intro length pos hf _; omega
  | succ fuel ih =>
    intro length pos hf hle
    by_cases h0 : length = 0
    · subst h0
      norm_num [checksumGo, checksum_amended, readAvail, sumWords]
    · by_cases hgt : length > bufsize
      · obtain ⟨c, hc⟩ := hd
        have hm4 : bufsize % 4 = 0 := by omega
        have hbuf : (readAvail file pos bufsize).length = bufsize := by
          rw [readAvail_length]; omega
        have h44 : 4 * (bufsize / 4) = bufsize := by omega
        simp only [checksumGo, if_neg h0, if_pos hgt, hm4, gt_iff_lt, lt_self_iff_false,
          if_false, Nat.add_zero, hbuf, h44, ne_eq, not_true_eq_false,
          if_neg (by omega : ¬ length ≤ bufsize)]
        rw [ih (length - bufsize) (pos + bufsize) (by omega) (by omega)]
        rw [checksum_amended_step file pos length bufsize hb ⟨c, hc⟩ hgt hle]
        rfl
      · have hlb : length ≤ bufsize := by omega
        have hbuf : (readAvail file pos length).length = length := by
          rw [readAvail_length]; omega
        rw [checksum_amended_small file pos length bufsize hb hd hlb hbuf]
        by_cases hr4 : length % 4 = 0
        · have h44 : 4 * (length / 4) = length := by omega
          simp only [checksumGo, if_neg h0, if_neg hgt, hr4, gt_iff_lt, lt_self_iff_false,
            if_false, Nat.add_zero, hbuf, h44, ne_eq, not_true_eq_false,
            if_pos hlb]
          simp [hr4]
        · have hpos : length % 4 > 0 := by omega
          have h44 : (4 - length % 4) + length = 4 * (length / 4 + 1) := by omega
          have hm : (4 - length % 4) % 4 = 4 - length % 4 := by omega
          simp only [checksumGo, if_neg h0, if_neg hgt, if_pos hpos, hbuf,
            List.length_append, List.length_replicate, h44, ne_eq, not_true_eq_false,
            if_false, if_pos hlb, hm]

/-- C8 amended: for any positive word-divisible block size and any byte range
inside the stream, `calc_table_checksum` returns the plain unreduced sum of
big-endian 32-bit words in which the final short block is LEFT-padded with
zero bytes (shifting the grouping), with no reduction modulo `2^32`. -/
theorem calc_table_checksum_left_padded :
    ∀ (file : List Nat) (offset length bufsize : Nat),
      0 < bufsize → 4 ∣ bufsize → offset + length ≤ file.length →
      calc_table_checksum file offset length bufsize =
        some (checksum_amended file offset length bufsize) := by
  intro file offset length bufsize hb hd hle
  exact checksumGo_eq file bufsize hb hd (length + 1) length offset (by omega) hle

/-- C8 amended, applied to the concrete range `[1,2,3,4,5,6]` with block size
4 (one full block plus a short one). -/
theorem calc_table_checksum_left_padded_witness :
    calc_table_checksum [1,2,3,4,5,6] 0 6 4 =
      some (checksum_amended [1,2,3,4,5,6] 0 6 4) :=
  calc_table_checksum_left_padded [1,2,3,4,5,6] 0 6 4 (by decide) (by decide)
    (by decide)

/-- Decoded `(nameId, string)` pairs of a name table, in record order; `none`
when a read or a decode fails. -/
def decodeNameRecords (file : List Nat) (b tblOff storOff : Nat) :
    Nat → Nat → Option (List (Nat × List Nat))
  | 0, _ => some []
  | n + 1, j =>
    match readExact file (b + tblOff + 6 + 12 * j) 12 with
    | none => none
    | some rb =>
      let r := parseNameRec rb
      match readExact file (b + tblOff + storOff + r.offset) r.length with
      | none => none
      | some sb =>
        match utf8Decode sb with
        | none => none
        | some str =>
          (decodeNameRecords file b tblOff storOff n (j + 1)).map ((r.nameId, str) :: ·)

/-- A successful name-table digression is the fold of `nameStep` over the
decoded records. -/
theorem processNames_ok (file : List Nat) (b tblOff storOff : Nat) :
    ∀ (n j : Nat) (s s' : NameState),
      processNames file b tblOff storOff n j s = .ok s' →
      ∃ rs, decodeNameRecords file b tblOff storOff n j = some rs ∧
        s' = rs.foldl (fun st p => nameStep st p.1 p.2) s := by
  intro n
  induction n with
  | zero =>
    intro j s s' h
    simp only [processNames] at h
    cases h
    exact ⟨[], rfl, rfl⟩
  | succ n ih =>
    intro j s s' h
    simp only [processNames] at h
    split at h
    · cases h
    next rb hrb =>
      split at h
      · cases h
      next sb hsb =>
        split at h
        · cases h
        next str hstr =>
          obtain ⟨rs, h1, h2⟩ := ih (j + 1) _ s' h
          refine ⟨((parseNameRec rb).nameId, str) :: rs, ?_, ?_⟩
          · simp only [decodeNameRecords, hrb, hsb, hstr, h1]
            rfl
          · simpa using h2

/-- Splitting a decoded record list at the first family (`nameId = 1`)
record: its string and the remaining records. -/
def findFamilySplit : List (Nat × List Nat) → Option (List Nat × List (Nat × List Nat))
  | [] => none
  | p :: rs => if p.1 = 1 then some (p.2, rs) else findFamilySplit rs

/-- The filename stem the record order produces: the first family string,
with the first subfamily (`nameId = 2`) string occurring AFTER the family
record appended. -/
def specFilename (rs : List (Nat × List Nat)) : Option (List Nat) :=
  match findFamilySplit rs with
  | none => none
  | some (fam, rest) =>
    some (fam ++
      match rest.find? (fun p => p.1 == 2) with
      | none => []
      | some q => sepDash ++ q.2)

/-- Once family and subfamily are both set the fold is inert. -/
theorem foldl_nameStep_done (rs : List (Nat × List Nat)) (f : List Nat) :
    rs.foldl (fun st p => nameStep st p.1 p.2) ⟨true, true, f⟩ = ⟨true, true, f⟩ := by
  induction rs with
  | nil => rfl
  | cons p rs ih =>
    have hstep : nameStep ⟨true, true, f⟩ p.1 p.2 = ⟨true, true, f⟩ := by
      simp [nameStep]
    rw [List.foldl_cons, hstep]
    exact ih

/-- With a family set and no subfamily yet, the fold appends the first
`nameId = 2` string it meets. -/
theorem foldl_nameStep_fam (rs : List (Nat × List Nat)) (f : List Nat) :
    rs.foldl (fun st p => nameStep st p.1 p.2) ⟨true, false, f⟩ =
      match rs.find? (fun p => p.1 == 2) with
      | none => ⟨true, false, f⟩
      | some q => ⟨true, true, f ++ sepDash ++ q.2⟩ := by
  induction rs with
  | nil => rfl
  | cons p rs ih =>
    by_cases h2 : p.1 = 2
    · have hstep : nameStep ⟨true, false, f⟩ p.1 p.2 = ⟨true, true, f ++ sepDash ++ p.2⟩ := by
        simp [nameStep, h2]
      rw [List.foldl_cons, hstep, foldl_nameStep_done,
        List.find?_cons_of_pos _ (by simpa using h2)]
    · have hstep : nameStep ⟨true, false, f⟩ p.1 p.2 = ⟨true, false, f⟩ := by
        simp [nameStep, h2]
      rw [List.foldl_cons, hstep, ih,
        List.find?_cons_of_neg _ (by simpa using h2)]

/-- From the initial state the fold finds the first family record and then
continues from the family state on the remainder. -/
theorem foldl_nameStep_init (rs : List (Nat × List Nat)) :
    rs.foldl (fun st p => nameStep st p.1 p.2) ⟨false, false, []⟩ =
      match findFamilySplit rs with
      | none => ⟨false, false, []⟩
      | some (fam, rest) =>
        rest.foldl (fun st p => nameStep st p.1 p.2) ⟨true, false, fam⟩ := by
  induction rs with
  | nil => rfl
  | cons p rs ih =>
    by_cases h1 : p.1 = 1
    · have hstep : nameStep ⟨false, false, []⟩ p.1 p.2 = ⟨true, false, p.2⟩ := by
        simp [nameStep, h1]
      rw [List.foldl_cons, hstep]
      simp [findFamilySplit, h1]
    · have hstep : nameStep ⟨false, false, []⟩ p.1 p.2 = ⟨false, false, []⟩ := by
        simp [nameStep, h1]
      rw [List.foldl_cons, hstep, ih]
      simp [findFamilySplit, h1]

/-- C5 amended: the subfamily is appended only when its record occurs after
the first family record.  For any successful name-table digression the
resulting filename stem is `specFilename` of the decoded records — the first
`nameId=1` string, themed with the first `nameId=2` string FOLLOWING it; a
`nameId=2` record preceding every `nameId=1` record is ignored.  On the
in-order example the filename is `Example - Bold.ttf`, and the TrueType
version tag selects `.ttf` while `OTTO` selects `.otf`. -/
theorem name_selection_order_dependent :
    (∀ (file : List Nat) (b tblOff storOff count : Nat) (s' : NameState),
      processNames file b tblOff storOff count 0 ⟨false, false, []⟩ = .ok s' →
      ∃ rs, decodeNameRecords file b tblOff storOff count 0 = some rs ∧
        s'.hasName = (specFilename rs).isSome ∧
        s'.fname = (specFilename rs).getD []) ∧
    evalCandidate (fun l => l) false fEx 0 =
      .ok (some ⟨[69,120,97,109,112,108,101,32,45,32,66,111,108,100,46,116,116,102],
        0, 69⟩) ∧
    extFor [0,1,0,0] = ttfExt ∧ extFor [79,84,84,79] = otfExt := by
  refine ⟨?_, by decide, by decide, by decide⟩
  intro file b tblOff storOff count s' h
  obtain ⟨rs, h1, h2⟩ := processNames_ok file b tblOff storOff count 0 _ s' h
  refine ⟨rs, h1, ?_⟩
  subst h2
  rw [foldl_nameStep_init]
  cases hsplit : findFamilySplit rs with
  | none => simp [specFilename, hsplit]
  | some pr =>
    obtain ⟨fam, rest⟩ := pr
    dsimp only
    rw [foldl_nameStep_fam]
    cases hf : rest.find? (fun p => p.1 == 2) with
    | none => simp [specFilename, hsplit, hf]
    | some q => simp [specFilename, hsplit, hf, List.append_assoc]

/-- The SHA-1 read loop gathers exactly the first `1024*k` bytes from the
start position, clamped at the end of the file. -/
theorem sha1Go_eq (file : List Nat) :
    ∀ (k p : Nat), sha1Go file k p =
      readAvail file p (min (1024 * k) (file.length - p)) := by
  intro k
  induction k with
  | zero => intro p; simp [sha1Go, readAvail]
  | succ k ih =>
    intro p
    simp only [sha1Go]
    rw [readAvail_length, ih]
    by_cases hp : file.length ≤ p
    · have hd0 : file.length - p = 0 := by omega
      simp [readAvail, hd0, List.drop_eq_nil_of_le hp]
    · by_cases h1 : file.length - p ≤ 1024
      · have hmin : min 1024 (file.length - p) = file.length - p := by omega
        have hmin2 : min (1024 * (k + 1)) (file.length - p) = file.length - p := by
          have hx : 1024 * (k + 1) = 1024 * k + 1024 := by ring
          omega
        have hz : file.length - (p + (file.length - p)) = 0 := by omega
        rw [hmin, hz, Nat.min_zero, hmin2]
        have ha : readAvail file (p + (file.length - p)) 0 = [] := by
          simp [readAvail]
        rw [ha, List.append_nil]
        simp only [readAvail]
        have t1 : (file.drop p).take 1024 = file.drop p :=
          List.take_of_length_le (by rw [List.length_drop]; omega)
        have t2 : (file.drop p).take (file.length - p) = file.drop p :=
          List.take_of_length_le (by rw [List.length_drop])
        rw [t1, t2]
      · have hmin : min 1024 (file.length - p) = 1024 := by omega
        have hx : 1024 * (k + 1) = 1024 * k + 1024 := by ring
        have hrest : min (1024 * k) (file.length - (p + 1024)) =
            min (1024 * (k + 1)) (file.length - p) - 1024 := by omega
        rw [hmin, hrest]
        set M := min (1024 * (k + 1)) (file.length - p) with hM
        obtain ⟨A, hA⟩ : ∃ A, M = 1024 + A := ⟨M - 1024, by omega⟩
        rw [hA, Nat.add_sub_cancel_left]
        simp only [readAvail]
        rw [List.take_add]
        congr 1
        rw [List.drop_drop]

/-- C5 amended, applied to the name table of `fEx` (two records, family
`Example` then subfamily `Bold`). -/
theorem name_selection_order_dependent_witness :
    ∃ rs, decodeNameRecords fEx 0 28 30 2 0 = some rs ∧
      (NameState.mk true true
        [69,120,97,109,112,108,101,32,45,32,66,111,108,100]).hasName =
        (specFilename rs).isSome ∧
      (NameState.mk true true
        [69,120,97,109,112,108,101,32,45,32,66,111,108,100]).fname =
        (specFilename rs).getD [] :=
  name_selection_order_dependent.1 fEx 0 28 30 2
    ⟨true, true, [69,120,97,109,112,108,101,32,45,32,66,111,108,100]⟩ (by decide)

/-- C6 amended: the bytes fed to the SHA-1 fallback are exactly the first
`1024 * (totalLength / 1024)` bytes of the candidate's range (clamped at the
end of the file) — the tail shorter than one block is never hashed; with the
default policy an unnamed candidate produces no target, and with the policy
enabled its filename is the digest of those block bytes plus the extension,
whatever digest function is plugged in. -/
theorem sha1_blocks_policy :
    (∀ (file : List Nat) (b total : Nat),
      sha1Input file b total =
        readAvail file b (min (1024 * (total / 1024)) (file.length - b))) ∧
    (∀ digest : List Nat → List Nat,
      evalCandidate digest false fileNoName 0 = .ok none) ∧
    (∀ digest : List Nat → List Nat,
      evalCandidate digest true fileNoName 0 =
        .ok (some ⟨sanitize (digest (sha1Input fileNoName 0 13) ++ ttfExt), 0, 13⟩)) := by
  refine ⟨?_, ?_, ?_⟩
  · intro file b total
    exact sha1Go_eq file (total / 1024) b
  · intro digest
    rfl
  · intro digest
    rfl

/-- The table records announced by the directory, in order; `none` when one
of the 16-byte reads runs past the end of the file. -/
def readRecords (file : List Nat) (b : Nat) : Nat → Nat → Option (List TableRecord)
  | 0, _ => some []
  | n + 1, i =>
    match readExact file (b + 12 + 16 * i) 16 with
    | none => none
    | some rb => (readRecords file b n (i + 1)).map (parseRecord rb :: ·)

/-- A successful record loop reads exactly `readRecords` and accumulates the
running maximum of `offset + length` over them. -/
theorem processRecords_total (file : List Nat) (b : Nat) :
    ∀ (n i total : Nat) (s : NameState) (res : Nat × NameState),
      processRecords file b n i total s = .ok res →
      ∃ recs, readRecords file b n i = some recs ∧
        res.1 = recs.foldl (fun a r => max a (r.offset + r.length)) total := by
  intro n
  induction n with
  | zero =>
    intro i total s res h
    simp only [processRecords] at h
    cases h
    exact ⟨[], rfl, rfl⟩
  | succ n ih =>
    intro i total s res h
    simp only [processRecords] at h
    split at h
    · cases h
    next rb hrb =>
      split at h
      · split at h
        · cases h
        next hb hhb =>
          split at h
          · cases h
          next s2 hpn =>
            obtain ⟨recs, h1, h2⟩ := ih (i + 1) _ s2 res h
            refine ⟨parseRecord rb :: recs, ?_, ?_⟩
            · simp only [readRecords, hrb, h1]
              rfl
            · simpa using h2
      · obtain ⟨recs, h1, h2⟩ := ih (i + 1) _ s res h
        refine ⟨parseRecord rb :: recs, ?_, ?_⟩
        · simp only [readRecords, hrb, h1]
          rfl
        · simpa using h2

/-- The target of the round-trip fixture `file75`. -/
def t75 : Target := ⟨[65,98,46,116,116,102], 3, 70⟩

/-- C3 amended: for every candidate that validates, the planned length is the
maximum of `record.offset + record.length` over its table records, and the
write emits `min(totalLength, fileSize - baseOffset)` bytes read verbatim at
the base offset (`totalLength` exactly whenever the span is inside the
file).  On the fixture `file75` the pipeline plans exactly one target and its
extracted bytes are byte-identical to the embedded blob. -/
theorem planned_length_covers_records :
    (∀ (digest : List Nat → List Nat) (saveInvalid : Bool) (file : List Nat)
        (base : Int) (t : Target),
      evalCandidate digest saveInvalid file base = .ok (some t) →
      ∃ sfnt recs,
        validateSfnt file t.offset = some sfnt ∧
        readRecords file t.offset sfnt.numTables 0 = some recs ∧
        t.length = recs.foldl (fun a r => max a (r.offset + r.length)) 0 ∧
        extract file t = readAvail file t.offset t.length ∧
        (extract file t).length = min t.length (file.length - t.offset)) ∧
    runPipeline (fun l => l) false file75 80 = .ok [t75] ∧
    extract file75 t75 = blob70 := by
  refine ⟨?_, by decide, by decide⟩
  intro digest si file base t h
  simp only [evalCandidate] at h
  split at h
  · cases h
  split at h
  · cases h
  split at h
  · cases h
  next sfnt hval =>
    split at h
    · cases h
    next total s hpr =>
      split at h
      · cases h
      · simp only [Except.ok.injEq, Option.some.injEq] at h
        subst h
        obtain ⟨recs, h1, h2⟩ :=
          processRecords_total file base.toNat sfnt.numTables 0 0
            ⟨false, false, []⟩ (total, s) hpr
        exact ⟨sfnt, recs, hval, h1, h2, rfl, readAvail_length file _ _⟩

/-- C3 amended, applied to the candidate of `file75` at base offset 3. -/
theorem planned_length_covers_records_witness :
    ∃ sfnt recs,
      validateSfnt file75 t75.offset = some sfnt ∧
      readRecords file75 t75.offset sfnt.numTables 0 = some recs ∧
      t75.length = recs.foldl (fun a r => max a (r.offset + r.length)) 0 ∧
      extract file75 t75 = readAvail file75 t75.offset t75.length ∧
      (extract file75 t75).length = min t75.length (file75.length - t75.offset) :=
  planned_length_covers_records.1 (fun l => l) false file75 3 t75 (by decide)

/-- The window matches of one chunk are strictly ascending and lie in
`[chunkOff, chunkOff + B)`. -/
theorem scanChunkMatches_lt (buf : List Nat) (B : Nat) (off : Int) :
    List.Pairwise (· < ·) (scanChunkMatches buf B off) ∧
    ∀ x ∈ scanChunkMatches buf B off, off ≤ x ∧ x < off + B := by
  constructor
  · refine List.Pairwise.filterMap
      (fun i => if (buf.drop i).take 4 ∈ sigList then some (off + i) else none)
      ?_ (List.pairwise_lt_range B)
    intro i j hij x hx y hy
    simp only [Option.mem_def] at hx hy
    split at hx
    · simp only [Option.some.injEq] at hx
      split at hy
      · simp only [Option.some.injEq] at hy
        subst hx; subst hy
        omega
      · cases hy
    · cases hx
  · intro x hx
    obtain ⟨i, hi, hfi⟩ := List.mem_filterMap.mp hx
    have hiB : i < B := List.mem_range.mp hi
    split at hfi
    · simp only [Option.some.injEq] at hfi
      subst hfi
      omega
    · cases hfi

/-- The scanner emits strictly ascending offsets, all at least `chunkOff`. -/
theorem scanGo_sorted (file : List Nat) (B : Nat) :
    ∀ (k pos : Nat) (buf : List Nat) (off : Int),
      List.Pairwise (· < ·) (scanGo file B k pos buf off) ∧
      ∀ x ∈ scanGo file B k pos buf off, off ≤ x := by
  intro k
  induction k with
  | zero =>
    intro pos buf off
    exact ⟨List.Pairwise.nil, by simp [scanGo]⟩
  | succ k ih =>
    intro pos buf off
    simp only [scanGo]
    constructor
    · rw [List.pairwise_append]
      refine ⟨(scanChunkMatches_lt _ _ _).1, (ih _ _ _).1, ?_⟩
      intro a ha b hb
      have h1 := ((scanChunkMatches_lt _ B off).2 a ha).2
      have h2 := (ih (pos + B) _ (off + B)).2 b hb
      omega
    · intro x hx
      rcases List.mem_append.mp hx with h | h
      · exact ((scanChunkMatches_lt _ B off).2 x h).1
      · have := (ih (pos + B) _ (off + B)).2 x h
        omega

/-- A target recorded by the candidate loop carries the candidate's offset. -/
theorem evalCandidate_offset (digest : List Nat → List Nat) (si : Bool)
    (file : List Nat) (o : Int) (t : Target) :
    evalCandidate digest si file o = .ok (some t) → (t.offset : Int) = o := by
  intro h
  simp only [evalCandidate] at h
  split at h
  · cases h
  split at h
  · cases h
  next hneg =>
    split at h
    · cases h
    · split at h
      · cases h
      · split at h
        · cases h
        · simp only [Except.ok.injEq, Option.some.injEq] at h
          subst h
          exact Int.toNat_of_nonneg (by omega)

/-- The offsets of the targets the candidate loop keeps form a sublist of the
processed offsets, in order. -/
theorem evalAll_sublist (digest : List Nat → List Nat) (si : Bool) (file : List Nat) :
    ∀ (os : List Int) (ts : List Target),
      evalAll digest si file os = .ok ts →
      List.Sublist (ts.map fun t => (t.offset : Int)) os := by
  intro os
  induction os with
  | nil =>
    intro ts h
    simp only [evalAll] at h
    cases h
    simp
  | cons o os ih =>
    intro ts h
    simp only [evalAll] at h
    split at h
    · cases h
    · exact (ih ts h).cons o
    next t ht =>
      split at h
      · cases h
      next ts' hts' =>
        cases h
        rw [List.map_cons, evalCandidate_offset digest si file o t ht]
        exact (ih ts' hts').cons₂ o

/-- The write loop's final content for a name is the content of the LAST
target in the list bearing that name (later writes overwrite earlier ones). -/
theorem writeAll_lookup (file : List Nat) :
    ∀ (ts : List Target) (name : List Nat),
      writeAll file ts name =
        match (ts.filter fun u => decide (u.filename = name)).getLast? with
        | some u => some (extract file u)
        | none => none := by
  intro ts
  induction ts using List.reverseRecOn with
  | nil => intro name; rfl
  | append_singleton ts t ih =>
    intro name
    simp only [writeAll, List.foldl_append, List.foldl_cons, List.foldl_nil]
    by_cases he : name = t.filename
    · simp only [if_pos he, List.filter_append]
      rw [List.filter_cons]
      simp only [decide_eq_true_eq, List.filter_nil]
      rw [if_pos he.symm, List.getLast?_concat]
    · simp only [if_neg he, List.filter_append]
      rw [List.filter_cons]
      simp only [decide_eq_true_eq, List.filter_nil]
      rw [if_neg (fun hh => he hh.symm), List.append_nil]
      simpa only [writeAll] using ih name

/-- In a list strictly ascending on offsets, the last element has the largest
offset. -/
theorem pairwise_getLast_max :
    ∀ (l : List Target), List.Pairwise (fun a b : Target => a.offset < b.offset) l →
      ∀ x, l.getLast? = some x → ∀ u ∈ l, u.offset ≤ x.offset := by
  intro l
  induction l with
  | nil => intro _ x hx; cases hx
  | cons a l ih =>
    intro hp x hx u hu
    cases l with
    | nil =>
      simp only [List.getLast?_singleton, Option.some.injEq] at hx
      subst hx
      simp only [List.mem_singleton] at hu
      subst hu
      exact le_refl _
    | cons b l2 =>
      have hx2 : (b :: l2).getLast? = some x := by
        simpa only [List.getLast?_cons_cons] using hx
      rcases List.mem_cons.mp hu with rfl | hu2
      · have hxm : x ∈ b :: l2 := List.mem_of_mem_getLast? hx2
        have := (List.pairwise_cons.mp hp).1 x hxm
        omega
      · exact ih (List.pairwise_cons.mp hp).2 x hx2 u hu2

/-- C10: the scanner emits strictly increasing offsets; the kept targets are
strictly increasing on base offsets; and for any planned target's filename
the finally written content is that of the greatest-offset target sharing
that filename (the last one written). -/
theorem candidates_ascending_last_write_wins :
    ∀ (digest : List Nat → List Nat) (saveInvalid : Bool) (file : List Nat)
      (B : Nat) (ts : List Target),
      runPipeline digest saveInvalid file B = .ok ts →
      List.Pairwise (· < ·) (scan file B) ∧
      List.Pairwise (fun a b : Target => a.offset < b.offset) ts ∧
      ∀ t ∈ ts, ∃ tmax, tmax ∈ ts ∧ tmax.filename = t.filename ∧
        writeAll file ts t.filename = some (extract file tmax) ∧
        ∀ u ∈ ts, u.filename = t.filename → u.offset ≤ tmax.offset := by
  intro digest si file B ts h
  have h2 : evalAll digest si file (scan file B) = .ok ts := h
  have hscan : List.Pairwise (· < ·) (scan file B) :=
    (scanGo_sorted file B (chunkNums file.length B) 0 (List.replicate (B + 4) 0) (-4)).1
  have hsub := evalAll_sublist digest si file (scan file B) ts h2
  have hmap : List.Pairwise (· < ·) (ts.map fun t => (t.offset : Int)) :=
    hscan.sublist hsub
  have hts : List.Pairwise (fun a b : Target => a.offset < b.offset) ts := by
    have hm := List.pairwise_map.mp hmap
    exact hm.imp (by intro a b hab; exact_mod_cast hab)
  refine ⟨hscan, hts, ?_⟩
  intro t ht
  have htl : t ∈ ts.filter fun u => decide (u.filename = t.filename) :=
    List.mem_filter.mpr ⟨ht, by simp⟩
  obtain ⟨x, hx⟩ : ∃ x, (ts.filter fun u => decide (u.filename = t.filename)).getLast? = some x := by
    cases hgl : (ts.filter fun u => decide (u.filename = t.filename)).getLast? with
    | none =>
      rw [List.getLast?_eq_none_iff] at hgl
      rw [hgl] at htl
      cases htl
    | some x => exact ⟨x, rfl⟩
  have hxmem : x ∈ ts.filter fun u => decide (u.filename = t.filename) :=
    List.mem_of_mem_getLast? hx
  refine ⟨x, (List.mem_filter.mp hxmem).1, ?_, ?_, ?_⟩
  · have hxf := (List.mem_filter.mp hxmem).2
    simpa using hxf
  · rw [writeAll_lookup, hx]
  · intro u hu huf
    have hul : u ∈ ts.filter fun v => decide (v.filename = t.filename) :=
      List.mem_filter.mpr ⟨hu, by simp [huf]⟩
    exact pairwise_getLast_max _ (hts.filter _) x hx u hul

/-- C10 applied to the fixture `file75` with chunk size 80, whose pipeline
plans the single target `t75`. -/
theorem candidates_ascending_last_write_wins_witness :
    List.Pairwise (· < ·) (scan file75 80) ∧
    List.Pairwise (fun a b : Target => a.offset < b.offset) [t75] ∧
    ∀ t ∈ [t75], ∃ tmax, tmax ∈ [t75] ∧ tmax.filename = t.filename ∧
      writeAll file75 [t75] t.filename = some (extract file75 tmax) ∧
      ∀ u ∈ [t75], u.filename = t.filename → u.offset ≤ tmax.offset :=
  candidates_ascending_last_write_wins (fun l => l) false file75 80 [t75] (by decide)
